import Mathlib

/-
Verification of the selection/preview core of the ContextFilePicker
component (src/frontend/src/components/ContextFilePicker.tsx).

Paths are modelled as `String`.  The component's local state
(`selectedPaths`, `previews`, `isLoadingPreview`, together with the
fetch that may be in flight) is modelled as an explicit record, and
each handler becomes a pure function on that record.  The merge logic
inside `handleAddFiles` / `handleAddFolder` is extracted as the pure
functions `addMany` / `addOne` on the selection value.
-/

/-- The merge performed by `handleAddFiles` when the file dialog
returns a list: start from a copy of the existing selection and push
each incoming path that is not already present.  Mirrors the loop
`for (const path of selected) if (!newPaths.includes(path)) newPaths.push(path)`. -/
def addMany (existing incoming : List String) : List String :=
  incoming.foldl (fun newPaths path =>
    if newPaths.contains path then newPaths else newPaths ++ [path]) existing

/-- The merge performed by `handleAddFolder` for a single candidate:
`if (!selectedPaths.includes(selected)) onSelectionChange([...selectedPaths, selected])`,
read as the resulting selection value (unchanged when the candidate is
already present). -/
def addOne (existing : List String) (candidate : String) : List String :=
  if existing.contains candidate then existing else existing ++ [candidate]

/-- Removal performed by `handleRemovePath` on the selection:
`selectedPaths.filter((p) => p !== pathToRemove)`. -/
def remove (existing : List String) (target : String) : List String :=
  existing.filter (fun p => p != target)

/-- Spec-side description of the tail that `addMany` appends: the
incoming elements in their given order, skipping any element already
seen (in the existing selection or kept earlier from the incoming
sequence). -/
def newElems (seen : List String) : List String → List String
  | [] => []
  | x :: xs => if seen.contains x then newElems seen xs else x :: newElems (seen ++ [x]) xs

theorem addMany_eq_append_newElems (S I : List String) :
    addMany S I = S ++ newElems S I := by
  induction I generalizing S with
  | nil => simp [addMany, newElems]
  | cons x xs ih =>
    by_cases hx : x ∈ S
    · simpa [addMany, newElems, hx] using ih S
    · have h1 : addMany S (x :: xs) = addMany (S ++ [x]) xs := by
        simp [addMany, hx]
      rw [h1, ih (S ++ [x])]
      simp [newElems, hx]

theorem addMany_mem (S I : List String) (x : String) :
    x ∈ addMany S I ↔ x ∈ S ∨ x ∈ I := by
  induction I generalizing S with
  | nil => simp [addMany]
  | cons a as ih =>
    by_cases haS : a ∈ S
    · have h1 : addMany S (a :: as) = addMany S as := by simp [addMany, haS]
      rw [h1, ih S]
      constructor
      · rintro (h | h)
        · exact Or.inl h
        · exact Or.inr (List.mem_cons_of_mem _ h)
      · rintro (h | h)
        · exact Or.inl h
        · rcases List.mem_cons.mp h with rfl | h
          · exact Or.inl haS
          · exact Or.inr h
    · have h1 : addMany S (a :: as) = addMany (S ++ [a]) as := by simp [addMany, haS]
      rw [h1, ih (S ++ [a])]
      simp [List.mem_append, List.mem_cons, or_assoc]

theorem addMany_nodup (S I : List String) (hS : S.Nodup) :
    (addMany S I).Nodup := by
  induction I generalizing S with
  | nil => simpa [addMany] using hS
  | cons a as ih =>
    by_cases haS : a ∈ S
    · have h1 : addMany S (a :: as) = addMany S as := by simp [addMany, haS]
      rw [h1]; exact ih S hS
    · have h1 : addMany S (a :: as) = addMany (S ++ [a]) as := by simp [addMany, haS]
      rw [h1]
      refine ih (S ++ [a]) ?_
      simp [List.nodup_append, hS, haS]

/-- C1: for a duplicate-free selection S and any incoming sequence I,
the merge done on a file-dialog result is duplicate-free, its elements
are exactly the union of S and I, S is kept unchanged as a prefix, and
the appended tail is I's new elements in I's order, skipping anything
already in S or equal to an earlier incoming element. -/
theorem addMany_dedup_merge (S I : List String) (hS : S.Nodup) :
    (addMany S I).Nodup ∧
    (∀ x, x ∈ addMany S I ↔ x ∈ S ∨ x ∈ I) ∧
    addMany S I = S ++ newElems S I :=
  ⟨addMany_nodup S I hS, addMany_mem S I, addMany_eq_append_newElems S I⟩

/-- Witness for C1 at a concrete input. -/
theorem addMany_dedup_merge_witness :
    (["a", "b"] : List String).Nodup ∧
    ((addMany ["a", "b"] ["b", "c", "c", "d"]).Nodup ∧
     (∀ x, x ∈ addMany ["a", "b"] ["b", "c", "c", "d"] ↔
        x ∈ (["a", "b"] : List String) ∨ x ∈ (["b", "c", "c", "d"] : List String)) ∧
     addMany ["a", "b"] ["b", "c", "c", "d"] =
       ["a", "b"] ++ newElems ["a", "b"] ["b", "c", "c", "d"]) :=
  ⟨by decide, addMany_dedup_merge ["a", "b"] ["b", "c", "c", "d"] (by decide)⟩

/-- C6: adding a path already present through the folder-dialog merge
leaves the selection unchanged. -/
theorem addOne_idem (S : List String) (p : String) (h : p ∈ S) :
    addOne S p = S := by
  simp [addOne, h]

/-- Witness for C6 at a concrete input. -/
theorem addOne_idem_witness :
    "a" ∈ (["a", "b"] : List String) ∧ addOne ["a", "b"] "a" = ["a", "b"] :=
  ⟨by decide, addOne_idem ["a", "b"] "a" (by decide)⟩

/-- C7: for p not yet selected, removing p after adding it restores the
original selection, and removing an absent path is a no-op. -/
theorem remove_addOne (S : List String) (p : String) (h : p ∉ S) :
    remove (addOne S p) p = S ∧ remove S p = S := by
  have hfilter : S.filter (fun q => q != p) = S := by
    refine List.filter_eq_self.mpr ?_
    intro a ha
    have : a ≠ p := fun hap => h (hap ▸ ha)
    simpa using this
  constructor
  · simp [addOne, remove, h, List.filter_append, hfilter]
  · simpa [remove] using hfilter

/-- Witness for C7 at a concrete input. -/
theorem remove_addOne_witness :
    "c" ∉ (["a", "b"] : List String) ∧
    (remove (addOne ["a", "b"] "c") "c" = ["a", "b"] ∧
     remove ["a", "b"] "c" = ["a", "b"]) :=
  ⟨by decide, remove_addOne ["a", "b"] "c" (by decide)⟩

/-- One entry of the preview payload, as in the `ContextFilePreview`
type consumed by the component (`file_path`, `filename`,
`text_preview`, `text_length`). -/
structure ContextFilePreview where
  file_path : String
  filename : String
  text_preview : String
  text_length : Nat
deriving DecidableEq, Repr

/-- The component's local state: the `selectedPaths` prop value, the
`previews` and `isLoadingPreview` state hooks, and `inFlight`, which
records the `file_paths` captured by a pending `fetch` (the request
body is built from `selectedPaths` at call time); `none` means no
preview request is outstanding. -/
structure PickerState where
  selectedPaths : List String
  previews : List ContextFilePreview
  isLoadingPreview : Bool
  inFlight : Option (List String)
deriving DecidableEq, Repr

/-- `handleRemovePath`: filter the path out of the selection and drop
its entry from the previews.  An in-flight fetch is untouched. -/
def handleRemovePath (s : PickerState) (pathToRemove : String) : PickerState :=
  { s with
    selectedPaths := s.selectedPaths.filter (fun p => p != pathToRemove),
    previews := s.previews.filter (fun p => p.file_path != pathToRemove) }

/-- `handleClearAll`: empty selection and empty previews. -/
def handleClearAll (s : PickerState) : PickerState :=
  { s with selectedPaths := [], previews := [] }

/-- A click on the Preview button.  The button carries
`disabled={isLoadingPreview}`, so a click while a request is loading
invokes nothing; otherwise `handlePreview` runs: it returns at once if
`selectedPaths.length === 0`, and else sets the loading flag and
issues the fetch with the current `selectedPaths` as body.  The
returned Bool reports whether a network call was started. -/
def clickPreview (s : PickerState) : PickerState × Bool :=
  if s.isLoadingPreview then (s, false)
  else if s.selectedPaths.length == 0 then (s, false)
  else ({ s with isLoadingPreview := true, inFlight := some s.selectedPaths }, true)

/-- How the awaited fetch of `handlePreview` can finish: an OK
response carrying parsed data, a response with `response.ok` false, or
a thrown error (network failure or malformed JSON). -/
inductive FetchOutcome where
  | ok (data : List ContextFilePreview)
  | httpError
  | thrown
deriving DecidableEq, Repr

/-- Resolution of the in-flight fetch in `handlePreview`: on an OK
response `setPreviews(data)` replaces the previews wholesale; on
`response.ok` false nothing is stored; a thrown error is only logged.
The `finally` block always clears `isLoadingPreview`. -/
def resolvePreview (s : PickerState) (o : FetchOutcome) : PickerState :=
  let s1 : PickerState :=
    match o with
    | .ok data => { s with previews := data }
    | .httpError => s
    | .thrown => s
  { s1 with isLoadingPreview := false, inFlight := none }

/-- C2 (amended): removing a path immediately leaves no preview entry
for it, but a successful resolution of a fetch that was already in
flight replaces the preview collection wholesale with the fetched
data, so an entry for the removed path can reappear — orphaned entries
from an in-flight fetch are not dropped. -/
theorem removePath_reconciliation (s : PickerState) (p : String) :
    ((handleRemovePath s p).previews.all (fun e => e.file_path != p)) = true ∧
    (∀ (t : PickerState) (data : List ContextFilePreview),
      (resolvePreview t (.ok data)).previews = data) := by
  constructor
  · simp only [handleRemovePath, List.all_eq_true]
    intro e he
    exact (List.mem_filter.mp he).2
  · intro t data
    rfl

/-- Preview entry used in the C2 counterexample trace. -/
def previewA : ContextFilePreview :=
  { file_path := "a", filename := "a", text_preview := "text of a", text_length := 9 }

/-- C2 counterexample: start with selection `["a"]`, click Preview (a
fetch for `["a"]` is now in flight), remove `"a"` (previews hold no
entry for `"a"`), then let the fetch resolve successfully with an
entry for `"a"`: the preview collection again contains an entry whose
path is the removed `"a"`. -/
theorem removePath_reconciliation_counterexample :
    (clickPreview ⟨["a"], [], false, none⟩).1.inFlight = some ["a"] ∧
    ((handleRemovePath (clickPreview ⟨["a"], [], false, none⟩).1 "a").previews.all
      (fun e => e.file_path != "a")) = true ∧
    previewA ∈ (resolvePreview
      (handleRemovePath (clickPreview ⟨["a"], [], false, none⟩).1 "a")
      (.ok [previewA])).previews ∧
    previewA.file_path = "a" := by
  decide

/-- C3: while a preview request is loading, a further click on the
(disabled) Preview trigger changes no state and starts no network
call. -/
theorem clickPreview_loading_guard (s : PickerState) (h : s.isLoadingPreview = true) :
    clickPreview s = (s, false) := by
  simp [clickPreview, h]

/-- Witness for C3 at a concrete loading state. -/
theorem clickPreview_loading_guard_witness :
    (PickerState.mk ["a"] [] true (some ["a"])).isLoadingPreview = true ∧
    clickPreview ⟨["a"], [], true, some ["a"]⟩ = (⟨["a"], [], true, some ["a"]⟩, false) :=
  ⟨rfl, clickPreview_loading_guard ⟨["a"], [], true, some ["a"]⟩ rfl⟩

/-- C4: when the fetch finishes other than with an OK response, the
previews and the selection are exactly as before; and whatever the
outcome, the loading flag is cleared. -/
theorem resolvePreview_failure (s : PickerState) (o : FetchOutcome)
    (h : o = .httpError ∨ o = .thrown) :
    (resolvePreview s o).previews = s.previews ∧
    (resolvePreview s o).selectedPaths = s.selectedPaths ∧
    (∀ o2 : FetchOutcome, (resolvePreview s o2).isLoadingPreview = false) := by
  refine ⟨?_, ?_, ?_⟩
  · rcases h with rfl | rfl <;> rfl
  · rcases h with rfl | rfl <;> rfl
  · intro o2
    cases o2 <;> rfl

/-- Witness for C4 at a concrete failing outcome. -/
theorem resolvePreview_failure_witness :
    ((FetchOutcome.httpError = .httpError ∨ FetchOutcome.httpError = .thrown) ∧
     ((resolvePreview ⟨["a"], [previewA], true, some ["a"]⟩ .httpError).previews
        = [previewA] ∧
      (resolvePreview ⟨["a"], [previewA], true, some ["a"]⟩ .httpError).selectedPaths
        = ["a"] ∧
      (∀ o2 : FetchOutcome,
        (resolvePreview ⟨["a"], [previewA], true, some ["a"]⟩ o2).isLoadingPreview
          = false))) :=
  ⟨Or.inl rfl,
   resolvePreview_failure ⟨["a"], [previewA], true, some ["a"]⟩ .httpError (Or.inl rfl)⟩

/-- C5: with an empty selection, invoking the preview trigger performs
no network call and leaves the whole state unchanged. -/
theorem clickPreview_empty_guard (s : PickerState) (h : s.selectedPaths = []) :
    clickPreview s = (s, false) := by
  by_cases hl : s.isLoadingPreview
  · simp [clickPreview, hl]
  · simp [clickPreview, hl, h]

/-- Witness for C5 at a concrete empty-selection state. -/
theorem clickPreview_empty_guard_witness :
    (PickerState.mk [] [previewA] false none).selectedPaths = [] ∧
    clickPreview ⟨[], [previewA], false, none⟩ = (⟨[], [previewA], false, none⟩, false) :=
  ⟨rfl, clickPreview_empty_guard ⟨[], [previewA], false, none⟩ rfl⟩

/-- C8: after Clear All, the selection is the empty sequence and the
preview collection is empty, whatever the prior state. -/
theorem handleClearAll_resets (s : PickerState) :
    (handleClearAll s).selectedPaths = [] ∧ (handleClearAll s).previews = [] :=
  ⟨rfl, rfl⟩

/-- The character map of `path.replace(/\\/g, '/')`: every backslash
becomes a forward slash, all other characters stay. -/
def toSlash (c : Char) : Char := if c = '\\' then '/' else c

/-- The JavaScript `split('/')`: cut the character list at every slash,
keeping empty pieces, so the result always has at least one piece. -/
def splitSlash : List Char → List (List Char)
  | [] => [[]]
  | c :: cs =>
      match splitSlash cs with
      | [] => [[]]
      | p :: ps => if c = '/' then [] :: p :: ps else (c :: p) :: ps

/-- `getFilename`: normalize separators, split on slashes, take
`parts[parts.length - 1]`, and fall back to the whole path when that
last piece is the empty (falsy) string. -/
def getFilename (path : List Char) : List Char :=
  let parts := splitSlash (path.map toSlash)
  let last := parts.getLastD []
  if last.isEmpty then path else last

/-- Modelled from the spec's words for comparison: the display name as
the last path segment of the string, accepting both separators. -/
def specLastSegment (path : List Char) : List Char :=
  (splitSlash (path.map toSlash)).getLastD []

theorem splitSlash_ne_nil (l : List Char) : splitSlash l ≠ [] := by
  cases l with
  | nil => simp [splitSlash]
  | cons c cs =>
    cases h : splitSlash cs with
    | nil => simp [splitSlash, h]
    | cons p ps => by_cases hc : c = '/' <;> simp [splitSlash, h, hc]

theorem splitSlash_pieces (l : List Char) :
    ∀ q ∈ splitSlash l, '/' ∉ q ∧ ∀ c ∈ q, c ∈ l := by
  induction l with
  | nil =>
    intro q hq
    simp [splitSlash] at hq
    simp [hq]
  | cons c cs ih =>
    intro q hq
    rcases hsplit : splitSlash cs with _ | ⟨p, ps⟩
    · exact absurd hsplit (splitSlash_ne_nil cs)
    · have ih' : ∀ q ∈ p :: ps, '/' ∉ q ∧ ∀ a ∈ q, a ∈ cs := by
        rw [← hsplit]; exact ih
      by_cases hc : c = '/'
      · rw [show splitSlash (c :: cs) = [] :: p :: ps by simp [splitSlash, hsplit, hc]] at hq
        rcases List.mem_cons.mp hq with rfl | hq'
        · simp
        · rcases ih' q hq' with ⟨h1, h2⟩
          exact ⟨h1, fun a ha => List.mem_cons_of_mem _ (h2 a ha)⟩
      · rw [show splitSlash (c :: cs) = (c :: p) :: ps by simp [splitSlash, hsplit, hc]] at hq
        rcases List.mem_cons.mp hq with rfl | hq'
        · rcases ih' p (List.mem_cons_self p ps) with ⟨h1, h2⟩
          refine ⟨?_, ?_⟩
          · intro hmem
            rcases List.mem_cons.mp hmem with heq | hmem'
            · exact hc heq.symm
            · exact h1 hmem'
          · intro a ha
            rcases List.mem_cons.mp ha with rfl | ha'
            · exact List.mem_cons_self a cs
            · exact List.mem_cons_of_mem _ (h2 a ha')
        · rcases ih' q (List.mem_cons_of_mem _ hq') with ⟨h1, h2⟩
          exact ⟨h1, fun a ha => List.mem_cons_of_mem _ (h2 a ha)⟩

theorem getLastD_mem {α : Type} (l : List α) (d : α) (h : l ≠ []) :
    l.getLastD d ∈ l := by
  induction l generalizing d with
  | nil => exact absurd rfl h
  | cons a as ih =>
    rw [List.getLastD_cons]
    cases as with
    | nil => simp [List.getLastD]
    | cons b bs => exact List.mem_cons_of_mem _ (ih a (by simp))

theorem specLastSegment_no_sep (path : List Char) :
    '/' ∉ specLastSegment path ∧ '\\' ∉ specLastSegment path := by
  have hmem : specLastSegment path ∈ splitSlash (path.map toSlash) :=
    getLastD_mem _ _ (splitSlash_ne_nil _)
  rcases splitSlash_pieces (path.map toSlash) _ hmem with ⟨h1, h2⟩
  refine ⟨h1, fun hbs => ?_⟩
  rcases List.mem_map.mp (h2 '\\' hbs) with ⟨c, _, hc⟩
  by_cases hcb : c = '\\'
  · rw [toSlash, if_pos hcb] at hc
    exact absurd hc (by decide)
  · rw [toSlash, if_neg hcb] at hc
    exact hcb hc

/-- C9 (amended): the display name is the last path segment (a piece
containing neither separator) whenever that segment is non-empty; when
the path ends in a separator or is empty the last segment is empty and
the whole original path is returned instead. -/
theorem getFilename_last_segment (path : List Char) :
    getFilename path =
      (if (specLastSegment path).isEmpty then path else specLastSegment path) ∧
    '/' ∉ specLastSegment path ∧ '\\' ∉ specLastSegment path :=
  ⟨rfl, specLastSegment_no_sep path⟩

/-- C9 counterexample: on the path "a/" the last segment (with either
reading of trailing separators) is "a" or empty, but the code returns
the whole string "a/", which contains a separator and so is no
segment at all. -/
theorem getFilename_counterexample :
    getFilename ['a', '/'] = ['a', '/'] ∧
    specLastSegment ['a', '/'] = [] ∧
    '/' ∈ getFilename ['a', '/'] := by
  decide

/-- The body of `handleAddFiles` once `select_context_files` resolved:
`some sel` is a non-cancelled dialog result.  A non-null, non-empty
result always ends in `onSelectionChange(newPaths)` (the argument is
returned as `some`); a null or empty result gives no notification
(`none`). -/
def handleAddFiles (selectedPaths : List String) (selected : Option (List String)) :
    Option (List String) :=
  match selected with
  | some sel => if sel.length > 0 then some (addMany selectedPaths sel) else none
  | none => none

/-- The body of `handleAddFolder` once `select_context_folder`
resolved: `if (selected)` rejects null and the empty (falsy) string;
an already-present path triggers no notification; otherwise
`onSelectionChange([...selectedPaths, selected])`. -/
def handleAddFolder (selectedPaths : List String) (selected : Option String) :
    Option (List String) :=
  match selected with
  | some sel =>
      if sel.isEmpty then none
      else if selectedPaths.contains sel then none
      else some (selectedPaths ++ [sel])
  | none => none

theorem addMany_eq_self (S I : List String) (h : ∀ x ∈ I, x ∈ S) :
    addMany S I = S := by
  induction I with
  | nil => rfl
  | cons a as ih =>
    have ha : a ∈ S := h a (List.mem_cons_self a as)
    have h1 : addMany S (a :: as) = addMany S as := by simp [addMany, ha]
    rw [h1]
    exact ih fun x hx => h x (List.mem_cons_of_mem _ hx)

/-- C10: a non-empty file-dialog result all of whose paths are already
selected still notifies `onSelectionChange` with a list equal to the
existing selection, whereas a folder-dialog result already selected
produces no notification at all. -/
theorem notify_on_no_change_differs (S I : List String) (p : String)
    (hI : I ≠ []) (hIsub : ∀ x ∈ I, x ∈ S) (hp : p ∈ S) :
    handleAddFiles S (some I) = some S ∧ handleAddFolder S (some p) = none := by
  constructor
  · have hlen : I.length > 0 := List.length_pos.mpr hI
    simp [handleAddFiles, hlen, addMany_eq_self S I hIsub]
  · by_cases hpe : p.isEmpty
    · simp [handleAddFolder, hpe]
    · simp [handleAddFolder, hpe, hp]

/-- Witness for C10 at a concrete input. -/
theorem notify_on_no_change_differs_witness :
    (["a"] : List String) ≠ [] ∧
    (∀ x ∈ (["a"] : List String), x ∈ (["a", "b"] : List String)) ∧
    "b" ∈ (["a", "b"] : List String) ∧
    (handleAddFiles ["a", "b"] (some ["a"]) = some ["a", "b"] ∧
     handleAddFolder ["a", "b"] (some "b") = none) :=
  ⟨by decide, by decide, by decide,
   notify_on_no_change_differs ["a", "b"] ["a"] "b" (by decide) (by decide) (by decide)⟩
